import Mathlib

/-!
Shallow embedding of the rigid rotation/translation transform engine of
`scripts/rotate_hugs_motion.py`: the axis-angle/rotation-matrix codec
(`axis_angle_to_rotmat`, `rotmat_to_axis_angle`, `euler_xyz_to_rotmat`)
and the sequence transform performed by `main` (lines 95-124).

Machine floats are idealised as real numbers; numpy arrays are lists of
rows of reals, and the numpy error conditions (mismatched `concatenate`,
non-divisible `reshape`) become an `Option` result.
-/

open Real Matrix

noncomputable section

/-- The degeneracy threshold `eps = 1e-8` used throughout the script. -/
def aaEps : ℝ := 1e-8

/-- `np.linalg.norm` of a 3-vector: square root of the sum of squares. -/
def norm3 (v : Fin 3 → ℝ) : ℝ := Real.sqrt (v 0 ^ 2 + v 1 ^ 2 + v 2 ^ 2)

/-- The skew-symmetric cross-product matrix `K` built from the unit axis
components in `axis_angle_to_rotmat` (lines 30-37). -/
def skewMat (x y z : ℝ) : Matrix (Fin 3) (Fin 3) ℝ :=
  !![0, -z, y; z, 0, -x; -y, x, 0]

/-- `axis_angle_to_rotmat` (lines 22-49): `angle = ‖aa‖`, axis normalised by
`np.clip(angle, eps, None) = max angle eps`, Rodrigues formula
`R = I + sin(angle) K + (1 - cos(angle)) K²`, and the per-element override
`R[small] = I[small]` for `angle < eps`. -/
def axis_angle_to_rotmat (aa : Fin 3 → ℝ) : Matrix (Fin 3) (Fin 3) ℝ :=
  let angle := norm3 aa
  let d := max angle aaEps
  let K := skewMat (aa 0 / d) (aa 1 / d) (aa 2 / d)
  if angle < aaEps then 1
  else 1 + Real.sin angle • K + (1 - Real.cos angle) • (K * K)

/-- `np.trace` of a 3×3 matrix (line 53). -/
def rotTrace (R : Matrix (Fin 3) (Fin 3) ℝ) : ℝ := R 0 0 + R 1 1 + R 2 2

/-- `cos_angle = np.clip((trace - 1)/2, -1, 1)` (lines 54-55). -/
def recoveredCos (R : Matrix (Fin 3) (Fin 3) ℝ) : ℝ :=
  min 1 (max (-1) ((rotTrace R - 1) / 2))

/-- `angle = np.arccos(cos_angle)` (line 56). -/
def recoveredAngle (R : Matrix (Fin 3) (Fin 3) ℝ) : ℝ :=
  Real.arccos (recoveredCos R)

/-- The antisymmetric-part numerator `(R₃₂-R₂₃, R₁₃-R₃₁, R₂₁-R₁₂)` (lines 58-61). -/
def antisymVec (R : Matrix (Fin 3) (Fin 3) ℝ) : Fin 3 → ℝ :=
  ![R 2 1 - R 1 2, R 0 2 - R 2 0, R 1 0 - R 0 1]

/-- `rotmat_to_axis_angle` (lines 52-68): recover the angle from the clamped
trace, divide the antisymmetric part by `2 * np.where(small, 1.0, sin_angle)`,
zero the axis where `|sin| < eps`, and scale by the angle. -/
def rotmat_to_axis_angle (R : Matrix (Fin 3) (Fin 3) ℝ) : Fin 3 → ℝ :=
  let angle := recoveredAngle R
  let sin_angle := Real.sin angle
  let d := 2 * (if |sin_angle| < aaEps then 1 else sin_angle)
  fun i => (if |sin_angle| < aaEps then 0 else antisymVec R i / d) * angle

/-- `euler_xyz_to_rotmat` (lines 71-79): elemental matrices about X, Y, Z
composed as `Rz @ Ry @ Rx`. -/
def euler_xyz_to_rotmat (rx ry rz : ℝ) : Matrix (Fin 3) (Fin 3) ℝ :=
  let cx := Real.cos rx
  let sx := Real.sin rx
  let cy := Real.cos ry
  let sy := Real.sin ry
  let cz := Real.cos rz
  let sz := Real.sin rz
  let Rx : Matrix (Fin 3) (Fin 3) ℝ := !![1, 0, 0; 0, cx, -sx; 0, sx, cx]
  let Ry : Matrix (Fin 3) (Fin 3) ℝ := !![cy, 0, sy; 0, 1, 0; -sy, 0, cy]
  let Rz : Matrix (Fin 3) (Fin 3) ℝ := !![cz, -sz, 0; sz, cz, 0; 0, 0, 1]
  Rz * Ry * Rx

/-- The standard elemental rotation matrix about the X axis (spec wording,
for comparison with the source's `euler_xyz_to_rotmat`). -/
def stdRotX (t : ℝ) : Matrix (Fin 3) (Fin 3) ℝ :=
  !![1, 0, 0; 0, Real.cos t, -Real.sin t; 0, Real.sin t, Real.cos t]

/-- The standard elemental rotation matrix about the Y axis (spec wording). -/
def stdRotY (t : ℝ) : Matrix (Fin 3) (Fin 3) ℝ :=
  !![Real.cos t, 0, Real.sin t; 0, 1, 0; -Real.sin t, 0, Real.cos t]

/-- The standard elemental rotation matrix about the Z axis (spec wording). -/
def stdRotZ (t : ℝ) : Matrix (Fin 3) (Fin 3) ℝ :=
  !![Real.cos t, -Real.sin t, 0; Real.sin t, Real.cos t, 0; 0, 0, 1]

/-- `np.deg2rad` : degrees to radians. -/
def deg2rad (d : ℝ) : ℝ := d * Real.pi / 180

/-- Read a length-3 row as a 3-vector (rows of the `(T,3)` arrays). -/
def vec3OfList (l : List ℝ) : Fin 3 → ℝ := fun i => l.getD i 0

/-- Write a 3-vector back as a row. -/
def list3OfVec (v : Fin 3 → ℝ) : List ℝ := [v 0, v 1, v 2]

/-- Split a flat buffer into consecutive chunks of `n` (fuel-indexed helper
for the `reshape` steps). -/
def chunksAux (n : ℕ) : ℕ → List ℝ → List (List ℝ)
  | _, [] => []
  | 0, _ :: _ => []
  | fuel + 1, l => l.take n :: chunksAux n fuel (l.drop n)

/-- Split a flat buffer into consecutive chunks of `n`: the semantics of
`np.reshape(-1, n)` on a buffer whose length is divisible by `n`. -/
def chunksOf (n : ℕ) (l : List ℝ) : List (List ℝ) := chunksAux n l.length l

/-- One pose through the pipeline of lines 102, 108 and 110: decode to a
rotation matrix, conjugate by `R_fix`, re-encode to axis-angle. -/
def transformPose (Rfix : Matrix (Fin 3) (Fin 3) ℝ) (aa : Fin 3 → ℝ) : Fin 3 → ℝ :=
  rotmat_to_axis_angle (Rfix * axis_angle_to_rotmat aa * Rfix.transpose)

/-- One 3-wide chunk of the flattened pose buffer through `transformPose`. -/
def poseChunk (Rfix : Matrix (Fin 3) (Fin 3) ℝ) (c : List ℝ) : List ℝ :=
  list3OfVec (transformPose Rfix (vec3OfList c))

/-- Columnwise mean-centering of the translation rows (line 116). -/
def centerRows (rows : List (List ℝ)) : List (List ℝ) :=
  rows.map (fun r =>
    list3OfVec (fun i => vec3OfList r i - (rows.map (fun s => vec3OfList s i)).sum / rows.length))

/-- The transform pipeline of `main` (lines 95-124) on already-loaded arrays:
concatenate `global_orient` and `body_pose` per frame (`np.concatenate` raises
unless the lengths agree), flatten and regroup into 3-wide chunks
(`reshape(-1, 24, 3)` raises unless the total size is divisible by 72),
push every chunk through decode/conjugate/re-encode, regroup into 72-wide
frames split `3`/`69`, rotate translations by direct multiplication, then
optional centering and the constant offset; `betas` passes through.
`transl` rows are taken 3-wide as guaranteed by the `(T,3)` file format;
its length and the length of `betas` are never inspected. -/
def transform (rx ry rz : ℝ) (center : Bool) (toff : Fin 3 → ℝ)
    (go bp transl : List (List ℝ)) (betas : List ℝ) :
    Option (List (List ℝ) × List (List ℝ) × List (List ℝ) × List ℝ) :=
  if go.length = bp.length then
    let flat := (List.zipWith (· ++ ·) go bp).flatten
    if 72 ∣ flat.length then
      let Rfix := euler_xyz_to_rotmat (deg2rad rx) (deg2rad ry) (deg2rad rz)
      let rows2 := chunksOf 72 (((chunksOf 3 flat).map (poseChunk Rfix)).flatten)
      let go2 := rows2.map (List.take 3)
      let bp2 := rows2.map (List.drop 3)
      let tr1 := transl.map (fun t => list3OfVec (Rfix.mulVec (vec3OfList t)))
      let tr2 := if center then centerRows tr1 else tr1
      let tr3 := tr2.map (fun t => list3OfVec (fun i => vec3OfList t i + toff i))
      some (go2, bp2, tr3, betas)
    else none
  else none

/-- Poses on which the axis-angle/matrix round-trip of the codec is exact:
exactly zero, or norm in `[eps, π)` with `sin` of the norm at least `eps`. -/
def goodAA (v : Fin 3 → ℝ) : Prop :=
  v = 0 ∨ (aaEps ≤ norm3 v ∧ norm3 v < Real.pi ∧ aaEps ≤ Real.sin (norm3 v))

end

theorem norm3_nonneg (v : Fin 3 → ℝ) : 0 ≤ norm3 v := Real.sqrt_nonneg _

theorem sq_norm3 (v : Fin 3 → ℝ) : norm3 v ^ 2 = v 0 ^ 2 + v 1 ^ 2 + v 2 ^ 2 :=
  Real.sq_sqrt (by positivity)

theorem norm3_zero_vec : norm3 ![0, 0, 0] = 0 := by
  simp [norm3]

theorem encode_small {v : Fin 3 → ℝ} (h : norm3 v < aaEps) :
    axis_angle_to_rotmat v = 1 := by
  simp only [axis_angle_to_rotmat]
  rw [if_pos h]

theorem encode_zero_vec : axis_angle_to_rotmat ![0, 0, 0] = 1 :=
  encode_small (by rw [norm3_zero_vec]; norm_num [aaEps])

theorem encode_not_small {v : Fin 3 → ℝ} (h : aaEps ≤ norm3 v) :
    axis_angle_to_rotmat v =
      1 + Real.sin (norm3 v) • skewMat (v 0 / norm3 v) (v 1 / norm3 v) (v 2 / norm3 v) +
        (1 - Real.cos (norm3 v)) •
          (skewMat (v 0 / norm3 v) (v 1 / norm3 v) (v 2 / norm3 v) *
            skewMat (v 0 / norm3 v) (v 1 / norm3 v) (v 2 / norm3 v)) := by
  simp only [axis_angle_to_rotmat, max_eq_left h]
  rw [if_neg (not_lt.2 h)]

theorem rod_entries (x y z s u : ℝ) :
    (1 + s • skewMat x y z + u • (skewMat x y z * skewMat x y z) :
        Matrix (Fin 3) (Fin 3) ℝ) =
      !![1 + u * (-z * z - y * y), -(s * z) + u * (x * y), s * y + u * (x * z);
         s * z + u * (x * y), 1 + u * (-z * z - x * x), -(s * x) + u * (y * z);
         -(s * y) + u * (x * z), s * x + u * (y * z), 1 + u * (-y * y - x * x)] := by
  rw [Matrix.one_fin_three]
  ext i j
  fin_cases i <;> fin_cases j <;>
    simp [-mul_eq_mul_left_iff, skewMat, Matrix.mul_apply, Fin.sum_univ_three] <;>
    ring

theorem decode_one : rotmat_to_axis_angle (1 : Matrix (Fin 3) (Fin 3) ℝ) = 0 := by
  have ht : rotTrace (1 : Matrix (Fin 3) (Fin 3) ℝ) = 3 := by
    simp [rotTrace, Matrix.one_apply]
    norm_num
  have hc : recoveredCos (1 : Matrix (Fin 3) (Fin 3) ℝ) = 1 := by
    rw [recoveredCos, ht]; norm_num
  have ha : recoveredAngle (1 : Matrix (Fin 3) (Fin 3) ℝ) = 0 := by
    rw [recoveredAngle, hc, Real.arccos_one]
  funext i
  simp [rotmat_to_axis_angle, ha]

theorem decode_encode (v : Fin 3 → ℝ) (h1 : aaEps ≤ norm3 v) (h2 : norm3 v ≤ Real.pi) :
    rotmat_to_axis_angle (axis_angle_to_rotmat v) =
      if |Real.sin (norm3 v)| < aaEps then 0 else v := by
  have hεpos : (0 : ℝ) < aaEps := by norm_num [aaEps]
  have hθpos : 0 < norm3 v := lt_of_lt_of_le hεpos h1
  have hθne : norm3 v ≠ 0 := ne_of_gt hθpos
  have hsq := sq_norm3 v
  have hxyz : (v 0 / norm3 v) ^ 2 + (v 1 / norm3 v) ^ 2 + (v 2 / norm3 v) ^ 2 = 1 := by
    field_simp
    linarith [hsq]
  have hR := encode_not_small h1
  rw [rod_entries] at hR
  have htr : rotTrace (axis_angle_to_rotmat v) = 1 + 2 * Real.cos (norm3 v) := by
    rw [hR]
    simp only [rotTrace]
    simp
    linear_combination (-2 * (1 - Real.cos (norm3 v))) * hxyz
  have hcos : recoveredCos (axis_angle_to_rotmat v) = Real.cos (norm3 v) := by
    rw [recoveredCos, htr]
    have heq : (1 + 2 * Real.cos (norm3 v) - 1) / 2 = Real.cos (norm3 v) := by ring
    rw [heq, max_eq_right (Real.neg_one_le_cos (norm3 v)),
      min_eq_right (Real.cos_le_one (norm3 v))]
  have hang : recoveredAngle (axis_angle_to_rotmat v) = norm3 v := by
    rw [recoveredAngle, hcos]
    exact Real.arccos_cos hθpos.le h2
  have hant : antisymVec (axis_angle_to_rotmat v) =
      ![2 * Real.sin (norm3 v) * (v 0 / norm3 v),
        2 * Real.sin (norm3 v) * (v 1 / norm3 v),
        2 * Real.sin (norm3 v) * (v 2 / norm3 v)] := by
    rw [hR]
    funext i
    fin_cases i <;> (simp [antisymVec]; ring)
  funext i
  simp only [rotmat_to_axis_angle, hang, hant]
  by_cases hsm : |Real.sin (norm3 v)| < aaEps
  · simp only [if_pos hsm]
    simp
  · have hs0 : Real.sin (norm3 v) ≠ 0 := by
      intro h0
      exact hsm (by rw [h0]; simpa using hεpos)
    simp only [if_neg hsm]
    fin_cases i <;> (simp; field_simp; ring)

theorem transpose_fin3 (a b c d e f g h i : ℝ) :
    (!![a, b, c; d, e, f; g, h, i]).transpose = !![a, d, g; b, e, h; c, f, i] := by
  ext k l
  fin_cases k <;> fin_cases l <;> simp

theorem rod_orth (x y z s c : ℝ) (hk : x ^ 2 + y ^ 2 + z ^ 2 = 1)
    (hsc : s ^ 2 + c ^ 2 = 1) :
    (1 + s • skewMat x y z + (1 - c) • (skewMat x y z * skewMat x y z)).transpose *
      (1 + s • skewMat x y z + (1 - c) • (skewMat x y z * skewMat x y z)) = 1 := by
  rw [rod_entries, transpose_fin3]
  ext i j
  fin_cases i <;> fin_cases j <;>
    simp [-mul_eq_mul_left_iff, Matrix.mul_apply, Fin.sum_univ_three, Matrix.one_apply,
      Fin.ext_iff, Matrix.vecHead, Matrix.vecTail]
  · linear_combination (y^2 + z^2) * hsc + (y^2 + z^2) * (1 - c)^2 * hk
  · linear_combination (-(x*y)) * hsc + (-((1 - c)^2 * x * y)) * hk
  · linear_combination (-(x*z)) * hsc + (-((1 - c)^2 * x * z)) * hk
  · linear_combination (-(x*y)) * hsc + (-((1 - c)^2 * x * y)) * hk
  · linear_combination (x^2 + z^2) * hsc + (x^2 + z^2) * (1 - c)^2 * hk
  · linear_combination (-(y*z)) * hsc + (-((1 - c)^2 * y * z)) * hk
  · linear_combination (-(x*z)) * hsc + (-((1 - c)^2 * x * z)) * hk
  · linear_combination (-(y*z)) * hsc + (-((1 - c)^2 * y * z)) * hk
  · linear_combination (x^2 + y^2) * hsc + (x^2 + y^2) * (1 - c)^2 * hk

theorem rod_det (x y z s c : ℝ) (hk : x ^ 2 + y ^ 2 + z ^ 2 = 1)
    (hsc : s ^ 2 + c ^ 2 = 1) :
    (1 + s • skewMat x y z + (1 - c) • (skewMat x y z * skewMat x y z)).det = 1 := by
  rw [rod_entries, Matrix.det_fin_three]
  simp [Matrix.vecHead, Matrix.vecTail]
  linear_combination ((1 - c)^2 * (x^2 + y^2 + z^2)) * hk + (x^2 + y^2 + z^2) * hsc

theorem encode_orth_det (v : Fin 3 → ℝ) :
    (axis_angle_to_rotmat v).transpose * axis_angle_to_rotmat v = 1 ∧
      (axis_angle_to_rotmat v).det = 1 := by
  by_cases h : norm3 v < aaEps
  · rw [encode_small h]
    simp
  · have h1 : aaEps ≤ norm3 v := not_lt.1 h
    have hθpos : 0 < norm3 v := lt_of_lt_of_le (by norm_num [aaEps]) h1
    have hxyz : (v 0 / norm3 v) ^ 2 + (v 1 / norm3 v) ^ 2 + (v 2 / norm3 v) ^ 2 = 1 := by
      have hsq := sq_norm3 v
      have : norm3 v ≠ 0 := ne_of_gt hθpos
      field_simp
      linarith [hsq]
    have hsc := Real.sin_sq_add_cos_sq (norm3 v)
    rw [encode_not_small h1]
    exact ⟨rod_orth _ _ _ _ _ hxyz hsc, rod_det _ _ _ _ _ hxyz hsc⟩

theorem chunksAux_nil (n fuel : ℕ) : chunksAux n fuel [] = [] := by
  cases fuel <;> rfl

theorem chunksAux_congr (n : ℕ) (hn : 0 < n) :
    ∀ (f1 f2 : ℕ) (l : List ℝ), l.length ≤ f1 → l.length ≤ f2 →
      chunksAux n f1 l = chunksAux n f2 l := by
  intro f1
  induction f1 with
  | zero =>
    intro f2 l h1 _
    have : l = [] := List.length_eq_zero.1 (Nat.le_zero.1 h1)
    subst this
    rw [chunksAux_nil, chunksAux_nil]
  | succ k ih =>
    intro f2 l h1 h2
    cases l with
    | nil => rw [chunksAux_nil, chunksAux_nil]
    | cons a t =>
      cases f2 with
      | zero => simp at h2
      | succ j =>
        show (a :: t).take n :: chunksAux n k ((a :: t).drop n) =
          (a :: t).take n :: chunksAux n j ((a :: t).drop n)
        congr 1
        apply ih
        · rw [List.length_drop]
          simp only [List.length_cons] at h1 ⊢
          omega
        · rw [List.length_drop]
          simp only [List.length_cons] at h2 ⊢
          omega

theorem chunksOf_nil (n : ℕ) : chunksOf n [] = [] := rfl

theorem chunksOf_step (n : ℕ) (hn : 0 < n) (l : List ℝ) (hl : l ≠ []) :
    chunksOf n l = l.take n :: chunksOf n (l.drop n) := by
  cases l with
  | nil => cases hl rfl
  | cons a t =>
    show chunksAux n (a :: t).length (a :: t) = _
    rw [List.length_cons]
    show (a :: t).take n :: chunksAux n t.length ((a :: t).drop n) = _
    congr 1
    apply chunksAux_congr n hn
    · rw [List.length_drop]
      simp only [List.length_cons]
      omega
    · exact le_refl _

theorem chunksOf_append (n : ℕ) (hn : 0 < n) (xs ys : List ℝ) (h : n ∣ xs.length) :
    chunksOf n (xs ++ ys) = chunksOf n xs ++ chunksOf n ys := by
  obtain ⟨m, hm⟩ := h
  induction m generalizing xs with
  | zero =>
    have hx : xs = [] := List.length_eq_zero.1 (by rw [hm]; rfl)
    subst hx
    simp [chunksOf_nil]
  | succ k ih =>
    have hm' : xs.length = n * k + n := by rw [hm, Nat.mul_succ]
    have hxs : xs ≠ [] := by
      intro h0
      subst h0
      simp at hm'
      omega
    have hn_le : n ≤ xs.length := by rw [hm']; exact Nat.le_add_left n (n * k)
    have hdrop : (xs.drop n).length = n * k := by
      rw [List.length_drop, hm']
      omega
    have hne : xs ++ ys ≠ [] := fun h0 => hxs (List.append_eq_nil.1 h0).1
    rw [chunksOf_step n hn _ hne, chunksOf_step n hn xs hxs,
      List.take_append_of_le_length hn_le, List.drop_append_of_le_length hn_le,
      List.cons_append]
    congr 1
    exact ih (xs.drop n) hdrop

theorem chunksOf_of_length_eq (n : ℕ) (hn : 0 < n) (l : List ℝ) (h : l.length = n) :
    chunksOf n l = [l] := by
  have hl : l ≠ [] := by
    intro h0
    subst h0
    simp at h
    omega
  rw [chunksOf_step n hn l hl, List.take_of_length_le (le_of_eq h),
    List.drop_eq_nil_of_le (le_of_eq h), chunksOf_nil]

theorem flatten_chunksOf (n : ℕ) (hn : 0 < n) (l : List ℝ) (h : n ∣ l.length) :
    (chunksOf n l).flatten = l := by
  obtain ⟨m, hm⟩ := h
  induction m generalizing l with
  | zero =>
    have hx : l = [] := List.length_eq_zero.1 (by rw [hm]; rfl)
    subst hx
    rfl
  | succ k ih =>
    have hm' : l.length = n * k + n := by rw [hm, Nat.mul_succ]
    have hl : l ≠ [] := by
      intro h0
      subst h0
      simp at hm'
      omega
    have hdrop : (l.drop n).length = n * k := by
      rw [List.length_drop, hm']
      omega
    rw [chunksOf_step n hn l hl, List.flatten_cons, ih (l.drop n) hdrop,
      List.take_append_drop]

theorem length_flatten_map_chunksOf (n : ℕ) (hn : 0 < n) (g : List ℝ → List ℝ)
    (hg : ∀ c, (g c).length = n) (l : List ℝ) (h : n ∣ l.length) :
    ((chunksOf n l).map g).flatten.length = l.length := by
  obtain ⟨m, hm⟩ := h
  induction m generalizing l with
  | zero =>
    have hx : l = [] := List.length_eq_zero.1 (by rw [hm]; rfl)
    subst hx
    rfl
  | succ k ih =>
    have hm' : l.length = n * k + n := by rw [hm, Nat.mul_succ]
    have hl : l ≠ [] := by
      intro h0
      subst h0
      simp at hm'
      omega
    have hdrop : (l.drop n).length = n * k := by
      rw [List.length_drop, hm']
      omega
    rw [chunksOf_step n hn l hl, List.map_cons, List.flatten_cons, List.length_append,
      hg, ih (l.drop n) hdrop, List.length_drop, hm']
    omega

theorem chunks_pipeline (g : List ℝ → List ℝ) (hg : ∀ c, (g c).length = 3) :
    ∀ rows : List (List ℝ), (∀ r ∈ rows, r.length = 72) →
      chunksOf 72 (((chunksOf 3 rows.flatten).map g).flatten) =
        rows.map (fun r => ((chunksOf 3 r).map g).flatten) := by
  intro rows
  induction rows with
  | nil =>
    intro _
    simp [chunksOf_nil]
  | cons r rest ih =>
    intro hw
    have hr : r.length = 72 := hw r (by simp)
    have hrest : ∀ q ∈ rest, q.length = 72 := fun q hq => hw q (by simp [hq])
    have hdiv3 : (3 : ℕ) ∣ r.length := by rw [hr]; norm_num
    have hlen1 : ((chunksOf 3 r).map g).flatten.length = 72 := by
      rw [length_flatten_map_chunksOf 3 (by norm_num) g hg r hdiv3, hr]
    rw [List.flatten_cons, chunksOf_append 3 (by norm_num) r rest.flatten hdiv3,
      List.map_append, List.flatten_append,
      chunksOf_append 72 (by norm_num) _ _ (by rw [hlen1]),
      chunksOf_of_length_eq 72 (by norm_num) _ hlen1, ih hrest, List.map_cons,
      List.singleton_append]

theorem vec3_list3 (v : Fin 3 → ℝ) : vec3OfList (list3OfVec v) = v := by
  funext i
  fin_cases i <;> rfl

theorem zipWith_append_width :
    ∀ (go bp : List (List ℝ)), (∀ r ∈ go, r.length = 3) → (∀ r ∈ bp, r.length = 69) →
      ∀ r ∈ List.zipWith (· ++ ·) go bp, r.length = 72 := by
  intro go
  induction go with
  | nil =>
    intro bp _ _ r hr
    simp at hr
  | cons g gt ih =>
    intro bp hgo hbp
    cases bp with
    | nil =>
      intro r hr
      simp at hr
    | cons b bt =>
      intro r hr
      rw [List.zipWith_cons_cons] at hr
      rcases List.mem_cons.1 hr with h | h
      · subst h
        rw [List.length_append, hgo g (by simp), hbp b (by simp)]
      · exact ih bt (fun q hq => hgo q (by simp [hq])) (fun q hq => hbp q (by simp [hq])) r h

theorem flatten_length_const (w : ℕ) :
    ∀ rows : List (List ℝ), (∀ r ∈ rows, r.length = w) →
      rows.flatten.length = w * rows.length := by
  intro rows
  induction rows with
  | nil =>
    intro _
    simp
  | cons r rest ih =>
    intro hw
    rw [List.flatten_cons, List.length_append, hw r (by simp),
      ih (fun q hq => hw q (by simp [hq])), List.length_cons, Nat.mul_succ]
    omega

theorem transform_structure (rx ry rz : ℝ) (go bp transl : List (List ℝ)) (betas : List ℝ)
    (hlen : go.length = bp.length) (hgo : ∀ r ∈ go, r.length = 3)
    (hbp : ∀ r ∈ bp, r.length = 69) :
    transform rx ry rz false 0 go bp transl betas =
      some
        (List.zipWith (fun g b =>
            (((chunksOf 3 (g ++ b)).map
              (poseChunk (euler_xyz_to_rotmat (deg2rad rx) (deg2rad ry) (deg2rad rz)))).flatten).take 3)
          go bp,
         List.zipWith (fun g b =>
            (((chunksOf 3 (g ++ b)).map
              (poseChunk (euler_xyz_to_rotmat (deg2rad rx) (deg2rad ry) (deg2rad rz)))).flatten).drop 3)
          go bp,
         transl.map (fun t =>
           list3OfVec ((euler_xyz_to_rotmat (deg2rad rx) (deg2rad ry) (deg2rad rz)).mulVec
             (vec3OfList t))),
         betas) := by
  have hrows := zipWith_append_width go bp hgo hbp
  have hflat := flatten_length_const 72 _ hrows
  have hdiv : 72 ∣ (List.zipWith (· ++ ·) go bp).flatten.length := ⟨_, hflat⟩
  have hpipe := chunks_pipeline
    (poseChunk (euler_xyz_to_rotmat (deg2rad rx) (deg2rad ry) (deg2rad rz)))
    (fun c => rfl) (List.zipWith (· ++ ·) go bp) hrows
  simp only [transform]
  rw [if_pos hlen, if_pos hdiv, hpipe]
  simp only [Bool.false_eq_true, if_false, List.map_map, List.map_zipWith, Function.comp]
  refine congrArg some (congrArg₂ Prod.mk rfl (congrArg₂ Prod.mk rfl
    (congrArg₂ Prod.mk ?_ rfl)))
  apply List.map_congr_left
  intro t _
  show list3OfVec (fun i => vec3OfList (list3OfVec _) i + (0 : Fin 3 → ℝ) i) = _
  exact congrArg list3OfVec (funext fun i => by rw [vec3_list3]; simp)

theorem norm3_zero_fun : norm3 (0 : Fin 3 → ℝ) = 0 := by
  simp [norm3]

theorem transformPose_small (Rf : Matrix (Fin 3) (Fin 3) ℝ)
    (horth : Rf * Rf.transpose = 1) {v : Fin 3 → ℝ} (hv : norm3 v < aaEps) :
    transformPose Rf v = 0 := by
  rw [transformPose, encode_small hv, Matrix.mul_one, horth, decode_one]

theorem transformPose_id {v : Fin 3 → ℝ} (h : goodAA v) : transformPose 1 v = v := by
  rcases h with h | ⟨h1, h2, h3⟩
  · subst h
    rw [transformPose_small 1 (by simp) (by rw [norm3_zero_fun]; norm_num [aaEps])]
  · rw [transformPose, Matrix.transpose_one, Matrix.one_mul, Matrix.mul_one,
      decode_encode v h1 h2.le, if_neg (not_lt.2 (le_trans h3 (le_abs_self _)))]

theorem list3_vec3 (c : List ℝ) (hc : c.length = 3) : list3OfVec (vec3OfList c) = c := by
  match c, hc with
  | [a, b, d], _ => rfl

theorem chunksOf_width (n : ℕ) (hn : 0 < n) (l : List ℝ) (h : n ∣ l.length) :
    ∀ c ∈ chunksOf n l, c.length = n := by
  obtain ⟨m, hm⟩ := h
  induction m generalizing l with
  | zero =>
    have hx : l = [] := List.length_eq_zero.1 (by rw [hm]; rfl)
    subst hx
    intro c hc
    simp [chunksOf_nil] at hc
  | succ k ih =>
    have hm' : l.length = n * k + n := by rw [hm, Nat.mul_succ]
    have hl : l ≠ [] := by
      intro h0
      subst h0
      simp at hm'
      omega
    have hdrop : (l.drop n).length = n * k := by
      rw [List.length_drop, hm']
      omega
    intro c hc
    rw [chunksOf_step n hn l hl] at hc
    rcases List.mem_cons.1 hc with h0 | h0
    · subst h0
      rw [List.length_take, hm']
      omega
    · exact ih (l.drop n) hdrop c h0

theorem euler_zero : euler_xyz_to_rotmat 0 0 0 = 1 := by
  simp only [euler_xyz_to_rotmat, Real.cos_zero, Real.sin_zero]
  ext i j
  fin_cases i <;> fin_cases j <;>
    simp [Matrix.mul_apply, Fin.sum_univ_three, Matrix.one_apply, Fin.ext_iff,
      Matrix.vecHead, Matrix.vecTail]

theorem deg2rad_zero : deg2rad 0 = 0 := by
  simp [deg2rad]

theorem pose_rows_fixed (Rf : Matrix (Fin 3) (Fin 3) ℝ) :
    ∀ (go bp : List (List ℝ)), go.length = bp.length →
      (∀ r ∈ go, r.length = 3) → (∀ r ∈ bp, r.length = 69) →
      (∀ r ∈ List.zipWith (· ++ ·) go bp, ∀ c ∈ chunksOf 3 r, poseChunk Rf c = c) →
      List.zipWith (fun g b =>
          (((chunksOf 3 (g ++ b)).map (poseChunk Rf)).flatten).take 3) go bp = go ∧
      List.zipWith (fun g b =>
          (((chunksOf 3 (g ++ b)).map (poseChunk Rf)).flatten).drop 3) go bp = bp := by
  intro go
  induction go with
  | nil =>
    intro bp hlen _ _ _
    have : bp = [] := List.length_eq_zero.1 (by simpa using hlen.symm)
    subst this
    exact ⟨rfl, rfl⟩
  | cons g gt ih =>
    intro bp hlen hgo hbp hfix
    cases bp with
    | nil => simp at hlen
    | cons b bt =>
      have hg3 : g.length = 3 := hgo g (by simp)
      have hb69 : b.length = 69 := hbp b (by simp)
      have hdiv : (3 : ℕ) ∣ (g ++ b).length := by
        rw [List.length_append, hg3, hb69]
        norm_num
      have hmap : (chunksOf 3 (g ++ b)).map (poseChunk Rf) = chunksOf 3 (g ++ b) := by
        have hpt : ∀ c ∈ chunksOf 3 (g ++ b), poseChunk Rf c = id c := by
          intro c hc
          exact hfix (g ++ b)
            (by rw [List.zipWith_cons_cons]; exact List.mem_cons_self _ _) c hc
        rw [List.map_congr_left hpt, List.map_id]
      have hrow : ((chunksOf 3 (g ++ b)).map (poseChunk Rf)).flatten = g ++ b := by
        rw [hmap, flatten_chunksOf 3 (by norm_num) _ hdiv]
      have hlen' : gt.length = bt.length := by simpa using hlen
      have hgo' : ∀ r ∈ gt, r.length = 3 := fun q hq => hgo q (by simp [hq])
      have hbp' : ∀ r ∈ bt, r.length = 69 := fun q hq => hbp q (by simp [hq])
      have hfix' : ∀ r ∈ List.zipWith (· ++ ·) gt bt, ∀ c ∈ chunksOf 3 r,
          poseChunk Rf c = c := by
        intro r hr
        exact hfix r (by rw [List.zipWith_cons_cons]; exact List.mem_cons_of_mem _ hr)
      obtain ⟨ih1, ih2⟩ := ih bt hlen' hgo' hbp' hfix'
      constructor
      · rw [List.zipWith_cons_cons, hrow, List.take_append_of_le_length (by omega),
          List.take_of_length_le (le_of_eq hg3), ih1]
      · rw [List.zipWith_cons_cons, hrow, List.drop_append_of_le_length (by omega),
          List.drop_eq_nil_of_le (le_of_eq hg3), List.nil_append, ih2]

/-- Claim C3: for all angles rx, ry, rz, `euler_xyz_to_rotmat rx ry rz` equals the
product `Rz * Ry * Rx` of the standard elemental rotation matrices about the
Z, Y and X axes, composed in exactly that right-to-left order. -/
theorem claim_C3 (rx ry rz : ℝ) :
    euler_xyz_to_rotmat rx ry rz = stdRotZ rz * stdRotY ry * stdRotX rx := rfl

/-- Claim C7: for any input vector `v`, the matrix `R = axis_angle_to_rotmat v`
satisfies `|(Rᵀ R - I) i j| < 1e-5` entrywise and `|det R - 1| < 1e-5`
(in the real-number model the identities are exact, so the tolerances hold). -/
theorem claim_C7 (v : Fin 3 → ℝ) (i j : Fin 3) :
    |((axis_angle_to_rotmat v).transpose * axis_angle_to_rotmat v - 1) i j| < 1e-5 ∧
      |(axis_angle_to_rotmat v).det - 1| < 1e-5 := by
  obtain ⟨ho, hd⟩ := encode_orth_det v
  rw [ho, hd]
  simp
  norm_num

/-- Claim C5: for every element of a batch whose axis-angle norm is below
`eps = 1e-8`, `axis_angle_to_rotmat` returns the identity matrix for that
element (the batch map applies the policy per element), and on the exact zero
vector it returns the identity exactly. -/
theorem claim_C5 :
    (∀ (l : List (Fin 3 → ℝ)) (i : ℕ) (hi : i < l.length),
        norm3 (l.get ⟨i, hi⟩) < aaEps →
          (l.map axis_angle_to_rotmat).get ⟨i, by simpa using hi⟩ = 1) ∧
      axis_angle_to_rotmat ![0, 0, 0] = 1 := by
  constructor
  · intro l i hi h
    rw [List.get_map]
    exact encode_small h
  · exact encode_zero_vec

/-- Witness for C5 at the concrete batch `[![0,0,0]]`, index 0. -/
theorem claim_C5_witness :
    norm3 (([![0, 0, 0]] : List (Fin 3 → ℝ)).get ⟨0, by norm_num⟩) < aaEps ∧
      (([![0, 0, 0]] : List (Fin 3 → ℝ)).map axis_angle_to_rotmat).get ⟨0, by simp⟩ = 1 := by
  have h : norm3 (([![0, 0, 0]] : List (Fin 3 → ℝ)).get ⟨0, by norm_num⟩) < aaEps := by
    rw [show (([![0, 0, 0]] : List (Fin 3 → ℝ)).get ⟨0, by norm_num⟩) = ![0, 0, 0] from rfl,
      norm3_zero_vec]
    norm_num [aaEps]
  exact ⟨h, claim_C5.1 [![0, 0, 0]] 0 (by norm_num) h⟩

/-- Claim C6: writing θ for the recovered angle `arccos(clip((trace-1)/2, -1, 1))`,
`rotmat_to_axis_angle` returns the zero vector whenever `|sin θ| < eps`, and
otherwise returns the axis `(R₃₂-R₂₃, R₁₃-R₃₁, R₂₁-R₁₂)/(2 sin θ)` scaled by θ. -/
theorem claim_C6 (R : Matrix (Fin 3) (Fin 3) ℝ) :
    (|Real.sin (recoveredAngle R)| < aaEps → rotmat_to_axis_angle R = 0) ∧
      (aaEps ≤ |Real.sin (recoveredAngle R)| → ∀ i,
        rotmat_to_axis_angle R i =
          antisymVec R i / (2 * Real.sin (recoveredAngle R)) * recoveredAngle R) := by
  constructor
  · intro h
    funext i
    simp only [rotmat_to_axis_angle, if_pos h]
    simp
  · intro h i
    simp only [rotmat_to_axis_angle, if_neg (not_lt.2 h)]

/-- Witness for C6 at the identity matrix, whose recovered angle is 0. -/
theorem claim_C6_witness :
    |Real.sin (recoveredAngle (1 : Matrix (Fin 3) (Fin 3) ℝ))| < aaEps ∧
      rotmat_to_axis_angle (1 : Matrix (Fin 3) (Fin 3) ℝ) = 0 := by
  have ht : rotTrace (1 : Matrix (Fin 3) (Fin 3) ℝ) = 3 := by
    simp [rotTrace, Matrix.one_apply]
    norm_num
  have hc : recoveredCos (1 : Matrix (Fin 3) (Fin 3) ℝ) = 1 := by
    rw [recoveredCos, ht]
    norm_num
  have ha : recoveredAngle (1 : Matrix (Fin 3) (Fin 3) ℝ) = 0 := by
    rw [recoveredAngle, hc, Real.arccos_one]
  have h : |Real.sin (recoveredAngle (1 : Matrix (Fin 3) (Fin 3) ℝ))| < aaEps := by
    rw [ha, Real.sin_zero, abs_zero]
    norm_num [aaEps]
  exact ⟨h, (claim_C6 1).1 h⟩

/-- Claim C10 (amended): `rotmat_to_axis_angle` is total; the recovered angle
always lies in `[0, π]`, and the divisor `2 * (1 if |sin θ| < eps else sin θ)`
always has absolute value at least `2*eps`, so no division by a near-zero value
occurs.  (The original claim's bound "output norm at most π" fails for
non-orthonormal inputs; see the counterexample.) -/
theorem claim_C10 (R : Matrix (Fin 3) (Fin 3) ℝ) :
    0 ≤ recoveredAngle R ∧ recoveredAngle R ≤ Real.pi ∧
      2 * aaEps ≤
        |2 * (if |Real.sin (recoveredAngle R)| < aaEps then 1
              else Real.sin (recoveredAngle R))| := by
  refine ⟨Real.arccos_nonneg _, Real.arccos_le_pi _, ?_⟩
  by_cases h : |Real.sin (recoveredAngle R)| < aaEps
  · rw [if_pos h]
    norm_num [aaEps]
  · rw [if_neg h, abs_mul]
    have h2 := not_lt.1 h
    have : |(2 : ℝ)| = 2 := by norm_num
    rw [this]
    nlinarith [h2]

/-- Claim C4 (amended): the transform fails exactly when the lengths of
`global_orient` and `body_pose` disagree or the flattened pose buffer size is
not divisible by 72; the length of `transl` and the length of `betas` are
never inspected, so mismatches there do not cause failure. -/
theorem claim_C4 (rx ry rz : ℝ) (center : Bool) (toff : Fin 3 → ℝ)
    (go bp transl : List (List ℝ)) (betas : List ℝ) :
    transform rx ry rz center toff go bp transl betas = none ↔
      (go.length ≠ bp.length ∨
        ¬ (72 ∣ (List.zipWith (· ++ ·) go bp).flatten.length)) := by
  by_cases h1 : go.length = bp.length
  · by_cases h2 : 72 ∣ (List.zipWith (· ++ ·) go bp).flatten.length
    · simp [transform, h1, h2]
    · simp [transform, h1, h2]
  · simp [transform, h1]

/-- Counterexample for C4 as stated: with one frame of poses but a `transl` of
length 2 and a `betas` of length 3, the transform still produces output
instead of failing with a shape mismatch. -/
theorem claim_C4_cex :
    (transform 0 0 0 false 0 [[0, 0, 0]] [List.replicate 69 0]
      [[1, 2, 3], [4, 5, 6]] [0, 0, 0]).isSome = true := by
  rw [transform_structure 0 0 0 [[0, 0, 0]] [List.replicate 69 0]
    [[1, 2, 3], [4, 5, 6]] [0, 0, 0] rfl (by simp) (by simp)]
  rfl

theorem vec3OfList_cons3 (a b c : ℝ) : vec3OfList [a, b, c] = ![a, b, c] := by
  funext i
  fin_cases i <;> rfl

theorem norm3_single {a : ℝ} (ha : 0 ≤ a) : norm3 ![a, 0, 0] = a := by
  have : norm3 ![a, 0, 0] = Real.sqrt (a ^ 2) := by
    simp [norm3]
  rw [this, Real.sqrt_sq ha]

theorem poseChunk_zero_row (Rf : Matrix (Fin 3) (Fin 3) ℝ)
    (horth : Rf * Rf.transpose = 1) : poseChunk Rf [0, 0, 0] = [0, 0, 0] := by
  rw [poseChunk, vec3OfList_cons3]
  have hv : norm3 ![(0 : ℝ), 0, 0] < aaEps := by
    rw [norm3_zero_vec]
    norm_num [aaEps]
  rw [transformPose_small Rf horth hv]
  rfl

theorem chunksOf_replicate_zero (m : ℕ) :
    chunksOf 3 (List.replicate (3 * m) (0 : ℝ)) = List.replicate m [0, 0, 0] := by
  induction m with
  | zero => rfl
  | succ k ih =>
    have hne : List.replicate (3 * (k + 1)) (0 : ℝ) ≠ [] := by
      simp [List.replicate_succ, Nat.mul_succ]
    rw [chunksOf_step 3 (by norm_num) _ hne, List.take_replicate, List.drop_replicate]
    have h1 : min 3 (3 * (k + 1)) = 3 := by omega
    have h2 : 3 * (k + 1) - 3 = 3 * k := by omega
    rw [h1, h2, ih]
    rfl

/-- Claim C1: in the transform (with centering off and zero offset), every joint
of every frame — the 24 chunks of each 72-wide frame — has its decoded rotation
matrix `M` replaced by the similarity transform `R_fix * M * R_fixᵀ`, while the
root translation of every frame is transformed by the direct multiplication
`R_fix * transl` (rotated directly, not conjugated). -/
theorem claim_C1 (rx ry rz : ℝ) (go bp transl : List (List ℝ)) (betas : List ℝ)
    (hlen : go.length = bp.length) (hgo : ∀ r ∈ go, r.length = 3)
    (hbp : ∀ r ∈ bp, r.length = 69) :
    transform rx ry rz false 0 go bp transl betas =
      some
        (List.zipWith (fun g b =>
            (((chunksOf 3 (g ++ b)).map (fun c =>
              list3OfVec (rotmat_to_axis_angle
                (euler_xyz_to_rotmat (deg2rad rx) (deg2rad ry) (deg2rad rz) *
                  axis_angle_to_rotmat (vec3OfList c) *
                  (euler_xyz_to_rotmat (deg2rad rx) (deg2rad ry)
                    (deg2rad rz)).transpose)))).flatten).take 3)
          go bp,
         List.zipWith (fun g b =>
            (((chunksOf 3 (g ++ b)).map (fun c =>
              list3OfVec (rotmat_to_axis_angle
                (euler_xyz_to_rotmat (deg2rad rx) (deg2rad ry) (deg2rad rz) *
                  axis_angle_to_rotmat (vec3OfList c) *
                  (euler_xyz_to_rotmat (deg2rad rx) (deg2rad ry)
                    (deg2rad rz)).transpose)))).flatten).drop 3)
          go bp,
         transl.map (fun t =>
           list3OfVec ((euler_xyz_to_rotmat (deg2rad rx) (deg2rad ry)
             (deg2rad rz)).mulVec (vec3OfList t))),
         betas) :=
  transform_structure rx ry rz go bp transl betas hlen hgo hbp

/-- Witness for C1: one frame of zero poses, translation `[1,0,0]`, at the
transform angles `rx=1, ry=2, rz=3` degrees. -/
theorem claim_C1_witness :
    transform 1 2 3 false 0 [[0, 0, 0]] [List.replicate 69 0] [[1, 0, 0]] [] =
      some
        (List.zipWith (fun g b =>
            (((chunksOf 3 (g ++ b)).map (fun c =>
              list3OfVec (rotmat_to_axis_angle
                (euler_xyz_to_rotmat (deg2rad 1) (deg2rad 2) (deg2rad 3) *
                  axis_angle_to_rotmat (vec3OfList c) *
                  (euler_xyz_to_rotmat (deg2rad 1) (deg2rad 2)
                    (deg2rad 3)).transpose)))).flatten).take 3)
          [[0, 0, 0]] [List.replicate 69 0],
         List.zipWith (fun g b =>
            (((chunksOf 3 (g ++ b)).map (fun c =>
              list3OfVec (rotmat_to_axis_angle
                (euler_xyz_to_rotmat (deg2rad 1) (deg2rad 2) (deg2rad 3) *
                  axis_angle_to_rotmat (vec3OfList c) *
                  (euler_xyz_to_rotmat (deg2rad 1) (deg2rad 2)
                    (deg2rad 3)).transpose)))).flatten).drop 3)
          [[0, 0, 0]] [List.replicate 69 0],
         [[1, 0, 0]].map (fun t =>
           list3OfVec ((euler_xyz_to_rotmat (deg2rad 1) (deg2rad 2)
             (deg2rad 3)).mulVec (vec3OfList t))),
         []) :=
  claim_C1 1 2 3 [[0, 0, 0]] [List.replicate 69 0] [[1, 0, 0]] [] rfl
    (by simp) (by simp)

/-- Claim C9 (amended): the zero-angle transform (rx=ry=rz=0, centering off,
zero offset) leaves `global_orient`, `body_pose`, `transl` and `betas`
numerically unchanged, provided every pose is either exactly zero or has norm
in `[eps, π)` with `sin` of the norm at least `eps` — the region where the
axis-angle/matrix round-trip of the codec is exact.  (Poses with norm below
`eps`, near `π`, or at `π` and beyond are re-encoded differently; see the
counterexample.) -/
theorem claim_C9 (go bp transl : List (List ℝ)) (betas : List ℝ)
    (hlen : go.length = bp.length) (hgo : ∀ r ∈ go, r.length = 3)
    (hbp : ∀ r ∈ bp, r.length = 69) (htr : ∀ r ∈ transl, r.length = 3)
    (hgood : ∀ r ∈ List.zipWith (· ++ ·) go bp, ∀ c ∈ chunksOf 3 r,
      goodAA (vec3OfList c)) :
    transform 0 0 0 false 0 go bp transl betas = some (go, bp, transl, betas) := by
  rw [transform_structure 0 0 0 go bp transl betas hlen hgo hbp]
  simp only [deg2rad_zero, euler_zero]
  have hrows := zipWith_append_width go bp hgo hbp
  have hfix : ∀ r ∈ List.zipWith (· ++ ·) go bp, ∀ c ∈ chunksOf 3 r,
      poseChunk 1 c = c := by
    intro r hr c hc
    have hdiv : (3 : ℕ) ∣ r.length := by rw [hrows r hr]; norm_num
    have hc3 : c.length = 3 := chunksOf_width 3 (by norm_num) r hdiv c hc
    rw [poseChunk, transformPose_id (hgood r hr c hc), list3_vec3 c hc3]
  obtain ⟨h1, h2⟩ := pose_rows_fixed 1 go bp hlen hgo hbp hfix
  rw [h1, h2]
  have ht : transl.map (fun t =>
      list3OfVec ((1 : Matrix (Fin 3) (Fin 3) ℝ).mulVec (vec3OfList t))) = transl := by
    calc transl.map (fun t =>
          list3OfVec ((1 : Matrix (Fin 3) (Fin 3) ℝ).mulVec (vec3OfList t)))
        = transl.map id :=
          List.map_congr_left (fun t htm => by
            rw [Matrix.one_mulVec, list3_vec3 t (htr t htm)]; rfl)
      _ = transl := List.map_id _
  rw [ht]

/-- Witness for C9: one frame whose global orientation has norm `π/2` about the
X axis, zero body pose, translation `[5,6,7]`. -/
theorem claim_C9_witness :
    transform 0 0 0 false 0 [[Real.pi / 2, 0, 0]] [List.replicate 69 0] [[5, 6, 7]]
        (List.replicate 10 0) =
      some ([[Real.pi / 2, 0, 0]], [List.replicate 69 0], [[5, 6, 7]],
        List.replicate 10 0) := by
  have hpi2 : (0 : ℝ) < Real.pi / 2 := by positivity
  have hgood : ∀ r ∈ List.zipWith (· ++ ·) ([[Real.pi / 2, 0, 0]] : List (List ℝ))
      [List.replicate 69 0], ∀ c ∈ chunksOf 3 r, goodAA (vec3OfList c) := by
    intro r hr c hc
    have hr' : r = List.replicate 72 (0 : ℝ) ∨ r = [Real.pi / 2, 0, 0] ++ List.replicate 69 0 := by
      simp at hr
      right
      exact hr
    rcases hr' with h | h
    · rw [h] at hc
      have := List.eq_of_mem_replicate
        (by rw [show (72 : ℕ) = 3 * 24 from rfl, chunksOf_replicate_zero] at hc; exact hc)
      rw [this, vec3OfList_cons3]
      left
      funext i
      fin_cases i <;> rfl
    · rw [h] at hc
      rw [chunksOf_append 3 (by norm_num) _ _ (by norm_num),
        chunksOf_of_length_eq 3 (by norm_num) _ (by norm_num),
        show (69 : ℕ) = 3 * 23 from rfl, chunksOf_replicate_zero] at hc
      rcases List.mem_cons.1 hc with h0 | h0
      · subst h0
        rw [vec3OfList_cons3]
        right
        rw [norm3_single (le_of_lt hpi2)]
        refine ⟨?_, ?_, ?_⟩
        · rw [aaEps]
          nlinarith [Real.pi_gt_three]
        · nlinarith [Real.pi_pos]
        · rw [Real.sin_pi_div_two, aaEps]
          norm_num
      · have := List.eq_of_mem_replicate h0
        rw [this, vec3OfList_cons3]
        left
        funext i
        fin_cases i <;> rfl
  exact claim_C9 [[Real.pi / 2, 0, 0]] [List.replicate 69 0] [[5, 6, 7]]
    (List.replicate 10 0) rfl (by simp) (by simp) (by simp) hgood

/-- Counterexample for C9 as stated: a well-formed sequence (one frame, equal
lengths for `global_orient`, `body_pose` and `transl`, `betas` of 10) whose
global orientation is the tiny but nonzero axis-angle `[1e-9, 0, 0]` is changed
by the zero-angle transform — the pose is re-encoded as exactly zero. -/
theorem claim_C9_cex :
    (transform 0 0 0 false 0 [[1e-9, 0, 0]] [List.replicate 69 0] [[0, 0, 0]]
        (List.replicate 10 0)).map
        (fun o => o.1) ≠ some [[(1e-9 : ℝ), 0, 0]] := by
  rw [transform_structure 0 0 0 [[1e-9, 0, 0]] [List.replicate 69 0] [[0, 0, 0]]
    (List.replicate 10 0) rfl (by simp) (by simp)]
  simp only [deg2rad_zero, euler_zero, Option.map_some]
  have hchunks : chunksOf 3 ([(1e-9 : ℝ), 0, 0] ++ List.replicate 69 0) =
      [(1e-9 : ℝ), 0, 0] :: List.replicate 23 [0, 0, 0] := by
    rw [chunksOf_append 3 (by norm_num) _ _ (by norm_num),
      chunksOf_of_length_eq 3 (by norm_num) _ (by norm_num),
      show (69 : ℕ) = 3 * 23 from rfl, chunksOf_replicate_zero]
    rfl
  have hhead : poseChunk 1 [(1e-9 : ℝ), 0, 0] = [0, 0, 0] := by
    rw [poseChunk, vec3OfList_cons3]
    have hv : norm3 ![(1e-9 : ℝ), 0, 0] < aaEps := by
      rw [norm3_single (by norm_num), aaEps]
      norm_num
    rw [transformPose_small 1 (by simp) hv]
    rfl
  have hzero : poseChunk 1 [(0 : ℝ), 0, 0] = [0, 0, 0] :=
    poseChunk_zero_row 1 (by simp)
  intro hcon
  rw [List.zipWith_cons_cons, List.zipWith_nil_right] at hcon
  simp only [hchunks, List.map_cons, List.map_replicate, hhead, hzero,
    List.flatten_cons] at hcon
  rw [List.take_append_of_le_length (by norm_num),
    List.take_of_length_le (by norm_num)] at hcon
  have : ([0, 0, 0] : List ℝ) = [(1e-9 : ℝ), 0, 0] := by
    have := (Option.some_inj.1 hcon)
    exact (List.cons_eq_cons.1 this).1
  have h0 : (0 : ℝ) = 1e-9 := (List.cons_eq_cons.1 this).1
  norm_num at h0

theorem euler_y90 :
    euler_xyz_to_rotmat (deg2rad 0) (deg2rad 90) (deg2rad 0) =
      !![0, 0, 1; 0, 1, 0; -1, 0, 0] := by
  have h90 : deg2rad 90 = Real.pi / 2 := by
    rw [deg2rad]
    ring
  rw [deg2rad_zero, h90]
  simp only [euler_xyz_to_rotmat, Real.cos_zero, Real.sin_zero, Real.cos_pi_div_two,
    Real.sin_pi_div_two]
  ext i j
  fin_cases i <;> fin_cases j <;>
    simp [Matrix.mul_apply, Fin.sum_univ_three, Matrix.vecHead, Matrix.vecTail]

theorem y90_orth :
    (!![0, 0, 1; 0, 1, 0; -1, 0, 0] : Matrix (Fin 3) (Fin 3) ℝ) *
      (!![0, 0, 1; 0, 1, 0; -1, 0, 0] : Matrix (Fin 3) (Fin 3) ℝ).transpose = 1 := by
  rw [transpose_fin3]
  ext i j
  fin_cases i <;> fin_cases j <;>
    simp [Matrix.mul_apply, Fin.sum_univ_three, Matrix.one_apply, Fin.ext_iff,
      Matrix.vecHead, Matrix.vecTail]

/-- Claim C8: the concrete scenario — one frame with zero global orientation
and body pose, translation `[1,0,0]`, transformed by `rx=0, ry=90, rz=0`
degrees with centering off and zero offset — yields translation `[0,0,-1]`
exactly and an unchanged zero global orientation. -/
theorem claim_C8 :
    transform 0 90 0 false 0 [[0, 0, 0]] [List.replicate 69 0] [[1, 0, 0]]
        (List.replicate 10 0) =
      some ([[0, 0, 0]], [List.replicate 69 0], [[0, 0, -1]],
        List.replicate 10 0) := by
  rw [transform_structure 0 90 0 [[0, 0, 0]] [List.replicate 69 0] [[1, 0, 0]]
    (List.replicate 10 0) rfl (by simp) (by simp)]
  simp only [euler_y90]
  have hfix : ∀ r ∈ List.zipWith (· ++ ·) ([[0, 0, 0]] : List (List ℝ))
      [List.replicate 69 0], ∀ c ∈ chunksOf 3 r,
      poseChunk (!![0, 0, 1; 0, 1, 0; -1, 0, 0] : Matrix (Fin 3) (Fin 3) ℝ) c = c := by
    intro r hr c hc
    have hr' : r = List.replicate 72 (0 : ℝ) := by
      simp at hr
      rw [hr, show (72 : ℕ) = 3 + 69 from rfl, List.replicate_add]
      rfl
    rw [hr', show (72 : ℕ) = 3 * 24 from rfl, chunksOf_replicate_zero] at hc
    rw [List.eq_of_mem_replicate hc]
    exact poseChunk_zero_row _ y90_orth
  obtain ⟨h1, h2⟩ := pose_rows_fixed (!![0, 0, 1; 0, 1, 0; -1, 0, 0])
    [[0, 0, 0]] [List.replicate 69 0] rfl (by simp) (by simp) hfix
  rw [h1, h2]
  have ht : ([[1, 0, 0]] : List (List ℝ)).map (fun t =>
      list3OfVec ((!![0, 0, 1; 0, 1, 0; -1, 0, 0] : Matrix (Fin 3) (Fin 3) ℝ).mulVec
        (vec3OfList t))) = [[0, 0, -1]] := by
    rw [List.map_cons, List.map_nil, vec3OfList_cons3]
    congr 2
    rw [list3OfVec]
    have hm : (!![0, 0, 1; 0, 1, 0; -1, 0, 0] : Matrix (Fin 3) (Fin 3) ℝ).mulVec
        ![1, 0, 0] = ![0, 0, -1] := by
      funext i
      fin_cases i <;>
        simp [Matrix.mulVec, dotProduct, Fin.sum_univ_three, Matrix.vecHead,
          Matrix.vecTail]
    rw [hm]
    rfl
  rw [ht]

/-- Claim C2 (amended): for every axis-angle vector `v` with
`eps < ‖v‖ < π - eps` and additionally `eps ≤ sin ‖v‖`, the round-trip
`rotmat_to_axis_angle (axis_angle_to_rotmat v)` equals `v` within `1e-5`
absolute tolerance in each component (in fact exactly).  The extra hypothesis
excludes only the sliver just below `π - eps` where `sin ‖v‖` drops under
`eps` and the decoder's small-`sin` branch returns the zero vector; see the
counterexample. -/
theorem claim_C2 (v : Fin 3 → ℝ) (h1 : aaEps < norm3 v)
    (h2 : norm3 v < Real.pi - aaEps) (h3 : aaEps ≤ Real.sin (norm3 v)) :
    ∀ i, |rotmat_to_axis_angle (axis_angle_to_rotmat v) i - v i| ≤ 1e-5 := by
  intro i
  have hε : (0 : ℝ) < aaEps := by norm_num [aaEps]
  have hle : norm3 v ≤ Real.pi := by linarith
  rw [decode_encode v h1.le hle, if_neg (not_lt.2 (le_trans h3 (le_abs_self _)))]
  simp
  norm_num

/-- Witness for C2 at `v = [π/2, 0, 0]`. -/
theorem claim_C2_witness :
    aaEps < norm3 ![Real.pi / 2, 0, 0] ∧
      norm3 ![Real.pi / 2, 0, 0] < Real.pi - aaEps ∧
      aaEps ≤ Real.sin (norm3 ![Real.pi / 2, 0, 0]) ∧
      |rotmat_to_axis_angle (axis_angle_to_rotmat ![Real.pi / 2, 0, 0]) 0 -
        (![Real.pi / 2, 0, 0]) 0| ≤ 1e-5 := by
  have hn : norm3 ![Real.pi / 2, 0, 0] = Real.pi / 2 := norm3_single (by positivity)
  have h1 : aaEps < norm3 ![Real.pi / 2, 0, 0] := by
    rw [hn, aaEps]
    nlinarith [Real.pi_gt_three]
  have h2 : norm3 ![Real.pi / 2, 0, 0] < Real.pi - aaEps := by
    rw [hn, aaEps]
    nlinarith [Real.pi_gt_three]
  have h3 : aaEps ≤ Real.sin (norm3 ![Real.pi / 2, 0, 0]) := by
    rw [hn, Real.sin_pi_div_two, aaEps]
    norm_num
  exact ⟨h1, h2, h3, claim_C2 ![Real.pi / 2, 0, 0] h1 h2 h3 0⟩

/-- Counterexample for C2 as stated: the vector `v = [π - (1e-8 + 1e-26), 0, 0]`
has norm strictly between `eps` and `π - eps`, yet the round-trip returns the
zero vector (because `sin ‖v‖ = sin (1e-8 + 1e-26) < 1e-8` triggers the
decoder's degenerate branch), an error of about `π`, far above the claimed
`1e-5` tolerance. -/
theorem claim_C2_cex :
    aaEps < norm3 ![Real.pi - (1e-8 + 1e-26), 0, 0] ∧
      norm3 ![Real.pi - (1e-8 + 1e-26), 0, 0] < Real.pi - aaEps ∧
      1e-5 < |rotmat_to_axis_angle (axis_angle_to_rotmat
        ![Real.pi - (1e-8 + 1e-26), 0, 0]) 0 -
          (![Real.pi - (1e-8 + 1e-26), 0, 0]) 0| := by
  have hapos : (0 : ℝ) < 1e-8 + 1e-26 := by norm_num
  have hc3 : (3 : ℝ) < Real.pi - (1e-8 + 1e-26) := by
    nlinarith [Real.pi_gt_d6]
  have hn : norm3 ![Real.pi - (1e-8 + 1e-26), 0, 0] = Real.pi - (1e-8 + 1e-26) :=
    norm3_single (by nlinarith)
  have hub : Real.sin (1e-8 + 1e-26) ≤
      (1e-8 + 1e-26) - (1e-8 + 1e-26) ^ 3 / 6 + (1e-8 + 1e-26) ^ 4 * (5 / 96) := by
    have hb := Real.sin_bound (x := 1e-8 + 1e-26)
      (by rw [abs_of_pos hapos]; norm_num)
    have h2 := (abs_le.1 hb).2
    rw [abs_of_pos hapos] at h2
    linarith
  have hnum : (1e-8 + 1e-26) - (1e-8 + 1e-26) ^ 3 / 6 +
      (1e-8 + 1e-26) ^ 4 * (5 / 96) < aaEps := by
    rw [aaEps]
    norm_num
  have hsin_lt : Real.sin (1e-8 + 1e-26) < aaEps := lt_of_le_of_lt hub hnum
  have hsmall : |Real.sin (norm3 ![Real.pi - (1e-8 + 1e-26), 0, 0])| < aaEps := by
    rw [hn, Real.sin_pi_sub,
      abs_of_pos (Real.sin_pos_of_pos_of_lt_pi hapos (by nlinarith))]
    exact hsin_lt
  have hrt : rotmat_to_axis_angle (axis_angle_to_rotmat
      ![Real.pi - (1e-8 + 1e-26), 0, 0]) = 0 := by
    rw [decode_encode _ (by rw [hn, aaEps]; nlinarith) (by rw [hn]; nlinarith),
      if_pos hsmall]
  refine ⟨?_, ?_, ?_⟩
  · rw [hn, aaEps]
    nlinarith
  · rw [hn, aaEps]
    norm_num
  · rw [hrt]
    have h0 : (![Real.pi - (1e-8 + 1e-26), 0, 0]) 0 = Real.pi - (1e-8 + 1e-26) := rfl
    simp only [Pi.zero_apply, zero_sub, abs_neg, h0]
    rw [abs_of_pos (by nlinarith)]
    nlinarith

/-- Counterexample for C10 as stated: on the (finite, non-orthonormal) input
matrix with antisymmetric part `(0, 0, 2000)`, the recovered angle is `2π/3`
and the output vector has norm `2000/√3 · 2π/3`, far larger than `π` — so
"norm at most π" fails for general finite inputs. -/
theorem claim_C10_cex :
    Real.pi <
      norm3 (rotmat_to_axis_angle
        (!![0, -1000, 0; 1000, 0, 0; 0, 0, 0] : Matrix (Fin 3) (Fin 3) ℝ)) := by
  have hspos : (0 : ℝ) < Real.sqrt 3 := Real.sqrt_pos.2 (by norm_num)
  have hs3 : Real.sqrt 3 < 2 := by
    nlinarith [Real.sq_sqrt (by norm_num : (0 : ℝ) ≤ 3), Real.sqrt_nonneg 3]
  have ht : rotTrace (!![0, -1000, 0; 1000, 0, 0; 0, 0, 0] :
      Matrix (Fin 3) (Fin 3) ℝ) = 0 := by
    simp [rotTrace, Matrix.vecHead, Matrix.vecTail]
  have hc : recoveredCos (!![0, -1000, 0; 1000, 0, 0; 0, 0, 0] :
      Matrix (Fin 3) (Fin 3) ℝ) = -(1 / 2) := by
    have he : ((0 : ℝ) - 1) / 2 = -(1 / 2) := by norm_num
    rw [recoveredCos, ht, he, max_eq_right (by norm_num : (-1 : ℝ) ≤ -(1 / 2)),
      min_eq_right (by norm_num : (-(1 / 2) : ℝ) ≤ 1)]
  have harc : recoveredAngle (!![0, -1000, 0; 1000, 0, 0; 0, 0, 0] :
      Matrix (Fin 3) (Fin 3) ℝ) = Real.pi - Real.pi / 3 := by
    rw [recoveredAngle, hc,
      show -(1 / 2 : ℝ) = -Real.cos (Real.pi / 3) from by rw [Real.cos_pi_div_three],
      Real.arccos_neg,
      Real.arccos_cos (by positivity) (by nlinarith [Real.pi_pos])]
  have hsin : Real.sin (recoveredAngle (!![0, -1000, 0; 1000, 0, 0; 0, 0, 0] :
      Matrix (Fin 3) (Fin 3) ℝ)) = Real.sqrt 3 / 2 := by
    rw [harc, Real.sin_pi_sub, Real.sin_pi_div_three]
  have hsin_ge : aaEps ≤ |Real.sin (recoveredAngle (!![0, -1000, 0; 1000, 0, 0; 0, 0, 0] :
      Matrix (Fin 3) (Fin 3) ℝ))| := by
    rw [hsin, abs_of_pos (by positivity), aaEps]
    nlinarith [Real.sq_sqrt (by norm_num : (0 : ℝ) ≤ 3), Real.sqrt_nonneg 3]
  have hout : ∀ i, rotmat_to_axis_angle (!![0, -1000, 0; 1000, 0, 0; 0, 0, 0] :
      Matrix (Fin 3) (Fin 3) ℝ) i =
      antisymVec (!![0, -1000, 0; 1000, 0, 0; 0, 0, 0] : Matrix (Fin 3) (Fin 3) ℝ) i /
        (2 * Real.sin (recoveredAngle (!![0, -1000, 0; 1000, 0, 0; 0, 0, 0] :
          Matrix (Fin 3) (Fin 3) ℝ))) *
        recoveredAngle (!![0, -1000, 0; 1000, 0, 0; 0, 0, 0] :
          Matrix (Fin 3) (Fin 3) ℝ) := by
    intro i
    simp only [rotmat_to_axis_angle, if_neg (not_lt.2 hsin_ge)]
  have hv : antisymVec (!![0, -1000, 0; 1000, 0, 0; 0, 0, 0] :
      Matrix (Fin 3) (Fin 3) ℝ) = ![0, 0, 2000] := by
    funext i
    fin_cases i <;> norm_num [antisymVec, Matrix.vecHead, Matrix.vecTail]
  have h0 : rotmat_to_axis_angle (!![0, -1000, 0; 1000, 0, 0; 0, 0, 0] :
      Matrix (Fin 3) (Fin 3) ℝ) 0 = 0 := by
    rw [hout 0, hv]
    simp
  have h1 : rotmat_to_axis_angle (!![0, -1000, 0; 1000, 0, 0; 0, 0, 0] :
      Matrix (Fin 3) (Fin 3) ℝ) 1 = 0 := by
    rw [hout 1, hv]
    simp
  have h2 : rotmat_to_axis_angle (!![0, -1000, 0; 1000, 0, 0; 0, 0, 0] :
      Matrix (Fin 3) (Fin 3) ℝ) 2 =
      2000 / Real.sqrt 3 * (Real.pi - Real.pi / 3) := by
    rw [hout 2, hv, hsin, harc]
    have : (2 : ℝ) * (Real.sqrt 3 / 2) = Real.sqrt 3 := by ring
    rw [this]
    simp
  have hz_pos : (0 : ℝ) < 2000 / Real.sqrt 3 * (Real.pi - Real.pi / 3) := by
    have : (0 : ℝ) < Real.pi - Real.pi / 3 := by nlinarith [Real.pi_pos]
    positivity
  have hnorm : norm3 (rotmat_to_axis_angle (!![0, -1000, 0; 1000, 0, 0; 0, 0, 0] :
      Matrix (Fin 3) (Fin 3) ℝ)) = 2000 / Real.sqrt 3 * (Real.pi - Real.pi / 3) := by
    rw [norm3, h0, h1, h2]
    rw [show (0 : ℝ) ^ 2 + 0 ^ 2 + (2000 / Real.sqrt 3 * (Real.pi - Real.pi / 3)) ^ 2 =
      (2000 / Real.sqrt 3 * (Real.pi - Real.pi / 3)) ^ 2 from by ring]
    exact Real.sqrt_sq hz_pos.le
  rw [hnorm, div_mul_eq_mul_div, lt_div_iff₀ hspos]
  nlinarith [Real.pi_pos, Real.pi_gt_three, hs3]
